import Mathlib

/-!
Shallow embedding of the AutomateKillTaskManager core
(`src-tauri/src/lib.rs` and `src-tauri/src/gpu.rs`).

Modelling conventions:
* Rust `String` / `&str` is modelled as `List Char` (`Str` below); Rust's
  byte-indexed substring operations coincide with character-indexed ones on
  valid UTF-8 input, so all indices below are character indices.
* `f32` / `f64` values are modelled as `ℚ` (exact rationals); `u32` / `u64`
  as `ℕ`.  None of the verified properties depend on rounding of binary
  floating point, and `ℚ` keeps every comparison decidable.
* The OS process table is passed in as an explicit list of `SysProc`; the
  outcome of `Process::kill_with(..) .. || Process::kill()` for a pid is an
  explicit oracle `killOk : ℕ → Bool`; the timestamp produced by
  `Local::now()` is an explicit parameter `now`.
* The `HashMap` used by `grouped_processes` has an unspecified value
  iteration order, so the drain order of `into_values()` is an explicit
  parameter (a permutation of the group keys).
* File persistence (`save_state` / `load_state`) is out of scope: every
  operation acts on the in-memory `AppState` and returns the new state.
-/

namespace AKTM

/-- Rust strings, modelled as character lists. -/
abbrev Str := List Char

/-- Rust `str::to_lowercase` (the process names involved are ASCII, where
`Char.toLower` agrees with Rust's lowercasing). -/
def strLower (s : Str) : Str := s.map Char.toLower

/-- Rust `str::contains(pat)`: does `pat` occur as a contiguous substring? -/
def containsSub : Str → Str → Bool
  | [], pat => pat.isEmpty
  | c :: rest, pat => pat.isPrefixOf (c :: rest) || containsSub rest pat

/-- Rust `str::trim` (whitespace at both ends removed). -/
def strTrim (s : Str) : Str :=
  ((s.dropWhile Char.isWhitespace).reverse.dropWhile Char.isWhitespace).reverse

/-- `lib.rs::resolve_process_name`: trim + lowercase, then the alias table. -/
def resolve_process_name (input : Str) : Str :=
  let s := strLower (strTrim input)
  if s = "edge".toList ∨ s = "microsoft edge".toList ∨ s = "msedge".toList then
    "msedge".toList
  else if s = "chrome".toList ∨ s = "google chrome".toList then "chrome".toList
  else if s = "code".toList ∨ s = "vscode".toList ∨ s = "vs code".toList then
    "code".toList
  else if s = "calc".toList ∨ s = "calculator".toList then "calculator".toList
  else if s = "notepad".toList then "notepad".toList
  else if s = "task manager".toList ∨ s = "taskmgr".toList then "taskmgr".toList
  else if s = "cmd".toList ∨ s = "command prompt".toList then "cmd".toList
  else if s = "powershell".toList then "powershell".toList
  else s

/-- `lib.rs::BlacklistEntry`. -/
structure BlacklistEntry where
  name : Str
  auto_kill : Bool
  cpu_threshold : ℚ
  log_enabled : Bool
  created_at : Str
  kill_count : ℕ
deriving DecidableEq, Repr

/-- `lib.rs::ActivityLog`. -/
structure ActivityLog where
  name : Str
  pid : ℕ
  cpu_usage : ℚ
  detected_at : Str
  was_killed : Bool
  reason : Str
deriving DecidableEq, Repr

/-- `lib.rs::AppState` (the persisted aggregate). -/
structure AppState where
  blacklist : List BlacklistEntry
  activity_logs : List ActivityLog
deriving DecidableEq, Repr

/-- `lib.rs::add_to_blacklist`.  Returns the Rust `Result` and the new
in-memory state. -/
def add_to_blacklist (name : Str) (auto_kill : Bool) (cpu_threshold : ℚ)
    (now : Str) (st : AppState) : Except Str Str × AppState :=
  let name := resolve_process_name name
  if name.isEmpty then (Except.error "Name cannot be empty".toList, st)
  else if st.blacklist.any (fun e => strLower e.name = strLower name) then
    (Except.error "Already in blacklist".toList, st)
  else
    (Except.ok (name ++ " added to blacklist".toList),
     { st with blacklist :=
        st.blacklist ++ [⟨name, auto_kill, cpu_threshold, true, now, 0⟩] })

/-- `lib.rs::remove_from_blacklist` (`Vec::retain` keeps the entries whose
lowercased name differs; the retained vector is stored back before the
length comparison decides ok vs error). -/
def remove_from_blacklist (name : Str) (st : AppState) :
    Except Str Str × AppState :=
  let bl := st.blacklist.filter (fun e => strLower e.name ≠ strLower name)
  if bl.length < st.blacklist.length then
    (Except.ok (name ++ " removed from blacklist".toList),
     { st with blacklist := bl })
  else
    (Except.error "Not found in blacklist".toList, { st with blacklist := bl })

/-- The `for`+`iter_mut` loop of `lib.rs::toggle_auto_kill`: flip the first
entry whose lowercased name equals `nameLower`, returning the new flag. -/
def toggleAutoKillAux (nameLower : Str) :
    List BlacklistEntry → Option (Bool × List BlacklistEntry)
  | [] => none
  | e :: rest =>
    if strLower e.name = nameLower then
      some (!e.auto_kill, { e with auto_kill := !e.auto_kill } :: rest)
    else
      match toggleAutoKillAux nameLower rest with
      | some (v, rest') => some (v, e :: rest')
      | none => none

/-- `lib.rs::toggle_auto_kill`. -/
def toggle_auto_kill (name : Str) (st : AppState) :
    Except Str Bool × AppState :=
  match toggleAutoKillAux (strLower name) st.blacklist with
  | some (v, bl) => (Except.ok v, { st with blacklist := bl })
  | none => (Except.error "Not found in blacklist".toList, st)

/-- The loop of `lib.rs::toggle_blacklist_log`. -/
def toggleLogAux (nameLower : Str) :
    List BlacklistEntry → Option (Bool × List BlacklistEntry)
  | [] => none
  | e :: rest =>
    if strLower e.name = nameLower then
      some (!e.log_enabled, { e with log_enabled := !e.log_enabled } :: rest)
    else
      match toggleLogAux nameLower rest with
      | some (v, rest') => some (v, e :: rest')
      | none => none

/-- `lib.rs::toggle_blacklist_log`. -/
def toggle_blacklist_log (name : Str) (st : AppState) :
    Except Str Bool × AppState :=
  match toggleLogAux (strLower name) st.blacklist with
  | some (v, bl) => (Except.ok v, { st with blacklist := bl })
  | none => (Except.error "Not found in blacklist".toList, st)

/-- The loop of `lib.rs::set_cpu_threshold`: the first matching entry gets
`threshold.max(0.0).min(100.0)` stored, and that stored value is returned. -/
def setCpuThresholdAux (nameLower : Str) (threshold : ℚ) :
    List BlacklistEntry → Option (ℚ × List BlacklistEntry)
  | [] => none
  | e :: rest =>
    if strLower e.name = nameLower then
      some (min (max threshold 0) 100,
            { e with cpu_threshold := min (max threshold 0) 100 } :: rest)
    else
      match setCpuThresholdAux nameLower threshold rest with
      | some (v, rest') => some (v, e :: rest')
      | none => none

/-- `lib.rs::set_cpu_threshold`. -/
def set_cpu_threshold (name : Str) (threshold : ℚ) (st : AppState) :
    Except Str ℚ × AppState :=
  match setCpuThresholdAux (strLower name) threshold st.blacklist with
  | some (v, bl) => (Except.ok v, { st with blacklist := bl })
  | none => (Except.error "Not found in blacklist".toList, st)

/-- `lib.rs::get_activity_logs`: clone, reverse, truncate to 100.  The state
is returned unchanged (the Rust closure only reads it). -/
def get_activity_logs (st : AppState) : List ActivityLog × AppState :=
  ((st.activity_logs.reverse).take 100, st)

-- ===== Enforcement engine (`lib.rs::check_and_kill_blacklist`) =====

/-- One row of the OS process table as consumed by the engine:
`Pid::as_u32`, `Process::name`, raw `Process::cpu_usage`, `Process::memory`
in bytes. -/
structure SysProc where
  pid : ℕ
  name : Str
  cpu : ℚ
  memory : ℕ
deriving DecidableEq, Repr

/-- The per-rule tuple `(e.name.to_lowercase(), e.auto_kill, e.cpu_threshold,
e.log_enabled)` captured into `blacklist_info` before the process loop. -/
structure RuleInfo where
  bl_name : Str
  auto_kill : Bool
  cpu_threshold : ℚ
  log_enabled : Bool
deriving DecidableEq, Repr

/-- `blacklist_info`: the snapshot of the blacklist taken at the top of
`check_and_kill_blacklist`. -/
def blInfo (bl : List BlacklistEntry) : List RuleInfo :=
  bl.map (fun e => ⟨strLower e.name, e.auto_kill, e.cpu_threshold, e.log_enabled⟩)

/-- The rule-match test `pname.contains(bl_name) || bl_name == &pname`
(`pname` is the lowercased process name). -/
def ruleMatches (pname : Str) (r : RuleInfo) : Bool :=
  containsSub pname r.bl_name || r.bl_name = pname

/-- Decimal digits of a natural number (used only to render reason strings). -/
def natDigits (n : ℕ) : Str := Nat.toDigits 10 n

/-- Rendering of an integer (used only to render reason strings). -/
def intDigits (i : ℤ) : Str :=
  if i < 0 then '-' :: natDigits i.natAbs else natDigits i.natAbs

/-- Rendering of `format!("{:.1}", x)` for the rational model: the value
rounded to tenths, printed with one digit after the point. -/
def fmtTenths (q : ℚ) : Str :=
  let n : ℤ := round (q * 10)
  intDigits (n / 10) ++ ('.' :: natDigits (n % 10).natAbs)

/-- Rendering of `format!("{:.0}", x)`: the value rounded to an integer. -/
def fmtUnits (q : ℚ) : Str := intDigits (round q)

/-- `format!("Killed (CPU: {:.1}%)", process_cpu)`. -/
def killedReason (cpu : ℚ) : Str :=
  "Killed (CPU: ".toList ++ fmtTenths cpu ++ "%)".toList

/-- `format!("CPU {:.1}% < threshold {:.0}%", process_cpu, cpu_threshold)`. -/
def belowReason (cpu thr : ℚ) : Str :=
  "CPU ".toList ++ fmtTenths cpu ++ "% < threshold ".toList ++
    fmtUnits thr ++ "%".toList

/-- Result of the decision block at lines 432-449 of `lib.rs` for one
process under its governing rule.  `attempted` records that the
`should_kill` branch ran, i.e. that `p.kill_with(Term) || p.kill()` was
invoked (its success is the `killOk` argument). -/
structure KillOutcome where
  attempted : Bool
  was_killed : Bool
  reason : Str
deriving DecidableEq, Repr

/-- The decision block: `should_kill = auto_kill && (cpu_threshold <= 0.0 ||
process_cpu >= cpu_threshold)`, then the three-way reason split. -/
def kill_decision (killOk : Bool) (auto_kill : Bool)
    (cpu_threshold process_cpu : ℚ) : KillOutcome :=
  let should_kill :=
    auto_kill && (decide (cpu_threshold ≤ 0) || decide (process_cpu ≥ cpu_threshold))
  if should_kill then
    if killOk then ⟨true, true, killedReason process_cpu⟩
    else ⟨true, false, "Kill failed (no permission)".toList⟩
  else if auto_kill && decide (process_cpu < cpu_threshold) then
    ⟨false, false, belowReason process_cpu cpu_threshold⟩
  else ⟨false, false, "Detected".toList⟩

/-- `state.blacklist.iter_mut().find(|e| e.name.to_lowercase() == *bl_name)`
followed by `entry.kill_count += 1`: bump the first matching entry. -/
def incKillCount : List BlacklistEntry → Str → List BlacklistEntry
  | [], _ => []
  | e :: rest, nm =>
    if strLower e.name = nm then { e with kill_count := e.kill_count + 1 } :: rest
    else e :: incKillCount rest nm

/-- The body of the outer process loop of `check_and_kill_blacklist` for a
single process `p`: find the first matching rule (the inner loop with its
`break`), run the decision block, bump `kill_count` on a confirmed kill, and
append the log to both `new_logs` and `state.activity_logs` iff the rule has
`log_enabled`. -/
def stepOne (info : List RuleInfo) (cpu_count : ℚ) (killOk : ℕ → Bool)
    (now : Str) (acc : List ActivityLog × AppState) (p : SysProc) :
    List ActivityLog × AppState :=
  let pname := strLower p.name
  let process_cpu := p.cpu / cpu_count
  match info.find? (ruleMatches pname) with
  | none => acc
  | some r =>
    let out := kill_decision (killOk p.pid) r.auto_kill r.cpu_threshold process_cpu
    let st :=
      if out.was_killed then
        { acc.2 with blacklist := incKillCount acc.2.blacklist r.bl_name }
      else acc.2
    let log : ActivityLog := ⟨p.name, p.pid, process_cpu, now, out.was_killed, out.reason⟩
    if r.log_enabled then
      (acc.1 ++ [log], { st with activity_logs := st.activity_logs ++ [log] })
    else (acc.1, st)

/-- `if state.activity_logs.len() > 1000 { state.activity_logs =
state.activity_logs.split_off(len - 1000) }`: keep only the last 1000. -/
def trimLogs (logs : List ActivityLog) : List ActivityLog :=
  if logs.length > 1000 then logs.drop (logs.length - 1000) else logs

/-- `lib.rs::check_and_kill_blacklist`.  `cpuCountRaw` is `sys.cpus().len()`,
`procs` the refreshed process table, `killOk` the OS answer to the combined
graceful-then-forced termination attempt for a pid, `now` the clock reading.
Returns `new_logs` and the final in-memory state. -/
def check_and_kill_blacklist (cpuCountRaw : ℚ) (killOk : ℕ → Bool) (now : Str)
    (procs : List SysProc) (st : AppState) : List ActivityLog × AppState :=
  let cpu_count := if cpuCountRaw > 0 then cpuCountRaw else 1
  let info := blInfo st.blacklist
  let res := procs.foldl (stepOne info cpu_count killOk now) ([], st)
  (res.1, { res.2 with activity_logs := trimLogs res.2.activity_logs })

-- ===== GPU sampler (`gpu.rs`) =====

/-- The value of a list of decimal digit characters. -/
def digitsVal (ds : Str) : ℕ :=
  ds.foldl (fun a c => a * 10 + (c.toNat - 48)) 0

/-- Rust `u32::from_str`: an optional leading `'+'`, then at least one ASCII
digit, value below `2^32`. -/
def parseU32 (s : Str) : Option ℕ :=
  let ds := if s.head? = some '+' then s.tail else s
  if ds.isEmpty then none
  else if ds.all Char.isDigit then
    if digitsVal ds < 4294967296 then some (digitsVal ds) else none
  else none

/-- `str::find(pat)`: index of the first occurrence of `pat`, if any. -/
def findSubIdx : Str → Str → Option ℕ
  | [], pat => if pat.isEmpty then some 0 else none
  | c :: rest, pat =>
    if pat.isPrefixOf (c :: rest) then some 0
    else (findSubIdx rest pat).map (· + 1)

/-- `gpu.rs::parse_pid_from_instance`: locate `"pid_"`, take up to the next
`'_'` (or end of string), parse as `u32`. -/
def parse_pid_from_instance (name : Str) : Option ℕ :=
  match findSubIdx name "pid_".toList with
  | some idx =>
    let rest := name.drop (idx + 4)
    let end_idx := (rest.findIdx? (· = '_')).getD rest.length
    let pid_str := rest.take end_idx
    parseU32 pid_str
  | none => none

/-- `*usage_map.entry(pid).or_insert(0.0) += value`, with the `HashMap`
modelled as an association list in first-insertion order (no verified
property depends on its iteration order). -/
def addGpuUsage : List (ℕ × ℚ) → ℕ → ℚ → List (ℕ × ℚ)
  | [], pid, v => [(pid, v)]
  | (p, x) :: rest, pid, v =>
    if p = pid then (p, x + v) :: rest else (p, x) :: addGpuUsage rest pid v

/-- The item loop of `GpuMonitor::get_usage`, fed with the decoded
`(instance name, formatted double value)` pairs returned by the counter
query: accumulate each parseable instance into its pid's total. -/
def get_usage (items : List (Str × ℚ)) : List (ℕ × ℚ) :=
  items.foldl
    (fun m it =>
      match parse_pid_from_instance it.1 with
      | some pid => addGpuUsage m pid it.2
      | none => m)
    []

/-- Reading a pid's total from the usage map (absent pids read as 0). -/
def gpuLookup (m : List (ℕ × ℚ)) (pid : ℕ) : ℚ :=
  (((m.find? (fun e => e.1 = pid)).map (fun e => e.2)).getD 0)

-- ===== Process grouping (`lib.rs::grouped_processes`) =====

/-- `lib.rs::ProcessGroup`. -/
structure ProcessGroup where
  name : Str
  process_count : ℕ
  pids : List ℕ
  total_cpu : ℚ
  total_memory_kb : ℕ
deriving DecidableEq, Repr

/-- `watch.iter().any(|w| pname_lower.contains(w) || w == &pname_lower)`. -/
def procMatchesWatch (watch : List Str) (pnameLower : Str) : Bool :=
  watch.any (fun w => containsSub pnameLower w || w = pnameLower)

/-- `groups.entry(base_name).or_insert(zero-group)` followed by the four
`+=` updates, on the association-list model of the `HashMap` (keyed by the
original-case name, kept in first-insertion order). -/
def addToGroup : List ProcessGroup → Str → ℕ → ℚ → ℕ → List ProcessGroup
  | [], pname, pid, ncpu, mem => [⟨pname, 1, [pid], ncpu, mem⟩]
  | g :: rest, pname, pid, ncpu, mem =>
    if g.name = pname then
      { g with
        process_count := g.process_count + 1
        pids := g.pids ++ [pid]
        total_cpu := g.total_cpu + ncpu
        total_memory_kb := g.total_memory_kb + mem } :: rest
    else g :: addToGroup rest pname pid ncpu mem

/-- One iteration of the process loop of `grouped_processes`. -/
def groupStep (watch : List Str) (cpu_count : ℚ) (gs : List ProcessGroup)
    (p : SysProc) : List ProcessGroup :=
  if procMatchesWatch watch (strLower p.name) then
    addToGroup gs p.name p.pid (p.cpu / cpu_count) (p.memory / 1024)
  else gs

/-- The process loop of `grouped_processes`: filter by the watch patterns and
aggregate into groups keyed by the original-case name. -/
def buildGroups (watch : List Str) (cpu_count : ℚ) (procs : List SysProc) :
    List ProcessGroup :=
  procs.foldl (groupStep watch cpu_count) []

/-- The sort comparator `|a, b| b.total_cpu.partial_cmp(&a.total_cpu)
.unwrap_or(Equal)`: `a` may stay before `b` iff `b.total_cpu ≤ a.total_cpu`
(on `ℚ` the `partial_cmp` never returns `None`). -/
def groupLe (a b : ProcessGroup) : Bool := decide (b.total_cpu ≤ a.total_cpu)

/-- Stable insertion: the new element goes after every already-placed element
it does not strictly beat, which is exactly the placement a stable sort by
`groupLe` gives to a later-occurring element. -/
def insertSorted (x : ProcessGroup) : List ProcessGroup → List ProcessGroup
  | [] => [x]
  | y :: ys => if groupLe y x then y :: insertSorted x ys else x :: y :: ys

/-- `Vec::sort_by` with the comparator above: stable sort by descending
`total_cpu` (insertion sort computes the unique stable result). -/
def sortGroups (l : List ProcessGroup) : List ProcessGroup :=
  l.foldl (fun acc g => insertSorted g acc) []

/-- The watch-pattern preprocessing shared by `watched_processes` and
`grouped_processes`: resolve each name and drop empties. -/
def watchOf (names : List Str) : List Str :=
  (names.map resolve_process_name).filter (fun s => !s.isEmpty)

/-- `let cpu_count = if cpu_count > 0.0 { cpu_count } else { 1.0 }`. -/
def cpuCountOf (cpuCountRaw : ℚ) : ℚ :=
  if cpuCountRaw > 0 then cpuCountRaw else 1

/-- `lib.rs::grouped_processes`.  `order` is the drain order of
`HashMap::into_values()` — an unspecified permutation of the group keys —
made explicit because Rust's `HashMap` does not fix it. -/
def grouped_processes (names : List Str) (cpuCountRaw : ℚ)
    (procs : List SysProc) (order : List Str) : List ProcessGroup :=
  let watch := watchOf names
  if watch.isEmpty then []
  else
    let gs := buildGroups watch (cpuCountOf cpuCountRaw) procs
    sortGroups (order.filterMap (fun k => gs.find? (fun g => g.name = k)))

-- ===== Specification-side helpers used to state the claims =====

/-- The processes of `procs` that match `watch` and carry exactly the
original-case name `name` (the members of `name`'s group). -/
def matchProcs (watch : List Str) (name : Str) (procs : List SysProc) :
    List SysProc :=
  procs.filter (fun p => procMatchesWatch watch (strLower p.name) && p.name = name)

/-- The group the specification predicts for `name`: member count, member
pids in encounter order, summed normalized CPU and summed memory. -/
def groupSpec (watch : List Str) (cpu_count : ℚ) (procs : List SysProc)
    (name : Str) : ProcessGroup :=
  ⟨name,
   (matchProcs watch name procs).length,
   (matchProcs watch name procs).map (fun p => p.pid),
   ((matchProcs watch name procs).map (fun p => p.cpu / cpu_count)).sum,
   ((matchProcs watch name procs).map (fun p => p.memory / 1024)).sum⟩

/-- Folding a list of member processes into an existing group, one
`addToGroup` update at a time (used to characterise the grouping loop). -/
def extendGroup (cpu_count : ℚ) (g : ProcessGroup) (m : List SysProc) :
    ProcessGroup :=
  m.foldl
    (fun g p =>
      ⟨g.name, g.process_count + 1, g.pids ++ [p.pid],
       g.total_cpu + p.cpu / cpu_count, g.total_memory_kb + p.memory / 1024⟩)
    g

/-- A blacklist whose entry names are pairwise distinct after lowercasing. -/
def distinctNames (bl : List BlacklistEntry) : Prop :=
  bl.Pairwise (fun a b => strLower a.name ≠ strLower b.name)

/-- The add/remove command alphabet of the blacklist store. -/
inductive BlOp where
  | addOp (name : Str) (auto_kill : Bool) (cpu_threshold : ℚ) (now : Str)
  | removeOp (name : Str)

/-- Run one blacklist command, keeping only the state. -/
def applyOp (st : AppState) : BlOp → AppState
  | .addOp n ak thr now => (add_to_blacklist n ak thr now st).2
  | .removeOp n => (remove_from_blacklist n st).2

/-- Run a command sequence left to right. -/
def runOps (ops : List BlOp) (st : AppState) : AppState :=
  ops.foldl applyOp st

-- ===== Helper lemmas =====

/-- One enforcement step appends the same log entry to `new_logs` and to
`state.activity_logs`, or to neither. -/
theorem stepOne_logs (info : List RuleInfo) (cnt : ℚ) (killOk : ℕ → Bool)
    (now : Str) (base : List ActivityLog) (acc : List ActivityLog × AppState)
    (p : SysProc) (h : acc.2.activity_logs = base ++ acc.1) :
    (stepOne info cnt killOk now acc p).2.activity_logs =
      base ++ (stepOne info cnt killOk now acc p).1 := by
  unfold stepOne
  cases hf : info.find? (ruleMatches (strLower p.name)) with
  | none => simpa [hf] using h
  | some r =>
    by_cases hl : r.log_enabled = true <;>
      by_cases hw : (kill_decision (killOk p.pid) r.auto_kill r.cpu_threshold
          (p.cpu / cnt)).was_killed = true <;>
        simp [hf, hl, hw, h, List.append_assoc]

/-- The whole enforcement loop appends exactly `new_logs` to the stored
activity log (before the final trim). -/
theorem foldl_stepOne_logs (info : List RuleInfo) (cnt : ℚ) (killOk : ℕ → Bool)
    (now : Str) (base : List ActivityLog) :
    ∀ (procs : List SysProc) (acc : List ActivityLog × AppState),
      acc.2.activity_logs = base ++ acc.1 →
      (procs.foldl (stepOne info cnt killOk now) acc).2.activity_logs =
        base ++ (procs.foldl (stepOne info cnt killOk now) acc).1
  | [], acc, h => h
  | p :: ps, acc, h =>
    foldl_stepOne_logs info cnt killOk now base ps
      (stepOne info cnt killOk now acc p)
      (stepOne_logs info cnt killOk now base acc p h)

/-- `trimLogs` always keeps a suffix of length `min length 1000`. -/
theorem trimLogs_eq_drop (l : List ActivityLog) :
    trimLogs l = l.drop (l.length - 1000) := by
  unfold trimLogs
  split
  · rfl
  · next h =>
    have : l.length - 1000 = 0 := by omega
    rw [this, List.drop_zero]

theorem trimLogs_suffix (l : List ActivityLog) : trimLogs l <:+ l := by
  rw [trimLogs_eq_drop]; exact List.drop_suffix _ _

theorem trimLogs_length (l : List ActivityLog) :
    (trimLogs l).length = min l.length 1000 := by
  rw [trimLogs_eq_drop, List.length_drop]; omega

/-- A filter that removes nothing returns the list unchanged. -/
theorem filter_eq_self_of_length {α : Type} (p : α → Bool) (l : List α)
    (h : ¬ (l.filter p).length < l.length) : l.filter p = l := by
  rw [List.filter_eq_self]
  rw [not_lt] at h
  have := List.length_filter_le p l
  exact List.filter_length_eq_length.mp (Nat.le_antisymm this h)

-- ===== C9 =====

/-- C9: `get_activity_logs` returns the most recently appended entries in
strictly reverse insertion order (most recent first), never more than
`min 100 total`, and leaves the stored log sequence unchanged. -/
theorem c9_read_recent (st : AppState) :
    (get_activity_logs st).2 = st ∧
    (get_activity_logs st).1.length = min 100 st.activity_logs.length ∧
    ∀ i, i < (get_activity_logs st).1.length →
      (get_activity_logs st).1[i]? =
        st.activity_logs[st.activity_logs.length - 1 - i]? := by
  refine ⟨rfl, by simp [get_activity_logs], ?_⟩
  intro i hi
  simp only [get_activity_logs, List.length_take, List.length_reverse] at hi
  have hi100 : i < 100 := lt_of_lt_of_le hi (min_le_left _ _)
  have hilen : i < st.activity_logs.length := lt_of_lt_of_le hi (min_le_right _ _)
  show ((st.activity_logs.reverse).take 100)[i]? = _
  rw [List.getElem?_take_of_lt hi100]
  rw [List.getElem?_reverse (by simpa using hilen)]

/-- C9 witness: on a two-entry log, the first returned entry is the last
stored one. -/
theorem c9_read_recent_witness :
    (get_activity_logs ⟨[], [⟨[], 0, 0, [], false, []⟩, ⟨[], 1, 0, [], false, []⟩]⟩).1[0]? =
      [⟨[], 0, 0, [], false, []⟩, (⟨[], 1, 0, [], false, []⟩ : ActivityLog)][2 - 1 - 0]? :=
  (c9_read_recent ⟨[], [⟨[], 0, 0, [], false, []⟩, ⟨[], 1, 0, [], false, []⟩]⟩).2.2 0
    (by decide)

-- ===== C3 =====

/-- C3: after every enforcement pass the stored activity log is a suffix of
the previous log extended by the pass's new entries, of length
`min (old + new) 1000` — so it never exceeds 1000 entries, the oldest
entries are the ones dropped, and storage order stays oldest-first. -/
theorem c3_log_bound (cpuCountRaw : ℚ) (killOk : ℕ → Bool) (now : Str)
    (procs : List SysProc) (st : AppState) :
    (check_and_kill_blacklist cpuCountRaw killOk now procs st).2.activity_logs.length ≤ 1000 ∧
    (check_and_kill_blacklist cpuCountRaw killOk now procs st).2.activity_logs <:+
      (st.activity_logs ++ (check_and_kill_blacklist cpuCountRaw killOk now procs st).1) ∧
    (check_and_kill_blacklist cpuCountRaw killOk now procs st).2.activity_logs.length =
      min (st.activity_logs.length +
        (check_and_kill_blacklist cpuCountRaw killOk now procs st).1.length) 1000 := by
  have hfold :=
    foldl_stepOne_logs (blInfo st.blacklist)
      (if cpuCountRaw > 0 then cpuCountRaw else 1) killOk now st.activity_logs procs
      ([], st) (by simp)
  unfold check_and_kill_blacklist
  simp only
  rw [hfold]
  refine ⟨?_, ?_, ?_⟩
  · rw [trimLogs_length]; omega
  · exact trimLogs_suffix _
  · rw [trimLogs_length]; simp

-- ===== C10 =====

/-- C10: every blacklist mutation that returns an error leaves the
in-memory `AppState` (blacklist and activity logs) exactly as it was. -/
theorem c10_error_preserves_state (st : AppState) :
    (∀ n ak thr now e, (add_to_blacklist n ak thr now st).1 = Except.error e →
        (add_to_blacklist n ak thr now st).2 = st) ∧
    (∀ n e, (remove_from_blacklist n st).1 = Except.error e →
        (remove_from_blacklist n st).2 = st) ∧
    (∀ n e, (toggle_auto_kill n st).1 = Except.error e →
        (toggle_auto_kill n st).2 = st) ∧
    (∀ n e, (toggle_blacklist_log n st).1 = Except.error e →
        (toggle_blacklist_log n st).2 = st) ∧
    (∀ n t e, (set_cpu_threshold n t st).1 = Except.error e →
        (set_cpu_threshold n t st).2 = st) := by
  refine ⟨?_, ?_, ?_, ?_, ?_⟩
  · intro n ak thr now e h
    by_cases h1 : (resolve_process_name n).isEmpty = true
    · simp [add_to_blacklist, h1]
    · by_cases h2 : (st.blacklist.any
          (fun e => strLower e.name = strLower (resolve_process_name n))) = true
      · simp [add_to_blacklist, h1, h2]
      · exfalso; simp [add_to_blacklist, h1, h2] at h
  · intro n e h
    by_cases hlen : (st.blacklist.filter
        (fun e => !decide (strLower e.name = strLower n))).length < st.blacklist.length
    · exfalso; simp [remove_from_blacklist, hlen] at h
    · have hself := filter_eq_self_of_length _ st.blacklist hlen
      simp [remove_from_blacklist, hlen, hself]
  · intro n e h
    unfold toggle_auto_kill at h ⊢
    cases hx : toggleAutoKillAux (strLower n) st.blacklist with
    | none => rfl
    | some v => rw [hx] at h; simp at h
  · intro n e h
    unfold toggle_blacklist_log at h ⊢
    cases hx : toggleLogAux (strLower n) st.blacklist with
    | none => rfl
    | some v => rw [hx] at h; simp at h
  · intro n t e h
    unfold set_cpu_threshold at h ⊢
    cases hx : setCpuThresholdAux (strLower n) t st.blacklist with
    | none => rfl
    | some v => rw [hx] at h; simp at h

/-- C10 witness: removing an absent name errors and leaves the state
untouched. -/
theorem c10_error_preserves_state_witness :
    (remove_from_blacklist "x".toList ⟨[], []⟩).2 = ⟨[], []⟩ :=
  (c10_error_preserves_state ⟨[], []⟩).2.1 "x".toList
    "Not found in blacklist".toList rfl

-- ===== C4 =====

/-- The value stored and returned by the `set_cpu_threshold` loop is the
clamped threshold. -/
theorem setCpuThresholdAux_val (nm : Str) (t : ℚ) :
    ∀ (l l' : List BlacklistEntry) (v : ℚ),
      setCpuThresholdAux nm t l = some (v, l') → v = min (max t 0) 100 := by
  intro l
  induction l with
  | nil => intro l' v h; simp [setCpuThresholdAux] at h
  | cons e rest ih =>
    intro l' v h
    by_cases he : strLower e.name = nm
    · simp [setCpuThresholdAux, he] at h
      exact h.1.symm
    · simp only [setCpuThresholdAux, if_neg he] at h
      cases hr : setCpuThresholdAux nm t rest with
      | none => rw [hr] at h; simp at h
      | some p =>
        obtain ⟨pv, pl⟩ := p
        rw [hr] at h
        simp at h
        rw [← h.1]
        exact ih pl pv hr

/-- Every entry after a successful `set_cpu_threshold` is either an untouched
old entry or carries the clamped threshold. -/
theorem setCpuThresholdAux_mem (nm : Str) (t : ℚ) :
    ∀ (l l' : List BlacklistEntry) (v : ℚ),
      setCpuThresholdAux nm t l = some (v, l') →
      ∀ e ∈ l', e ∈ l ∨ e.cpu_threshold = min (max t 0) 100 := by
  intro l
  induction l with
  | nil => intro l' v h; simp [setCpuThresholdAux] at h
  | cons e rest ih =>
    intro l' v h x hx
    by_cases he : strLower e.name = nm
    · simp [setCpuThresholdAux, he] at h
      rw [← h.2] at hx
      rcases List.mem_cons.mp hx with h1 | h1
      · right; rw [h1]
      · left; exact List.mem_cons_of_mem _ h1
    · simp only [setCpuThresholdAux, if_neg he] at h
      cases hr : setCpuThresholdAux nm t rest with
      | none => rw [hr] at h; simp at h
      | some p =>
        obtain ⟨pv, pl⟩ := p
        rw [hr] at h
        simp at h
        rw [← h.2] at hx
        rcases List.mem_cons.mp hx with h1 | h1
        · left; rw [h1]; exact List.mem_cons_self _ _
        · rcases ih pl pv hr x h1 with h2 | h2
          · left; exact List.mem_cons_of_mem _ h2
          · right; exact h2

/-- C4 counterexample: `add_to_blacklist` stores `cpu_threshold = 150`
verbatim, and `150` lies outside `[0, 100]` — creation does not clamp. -/
theorem c4_add_does_not_clamp :
    ((add_to_blacklist "foo".toList true 150 "t".toList ⟨[], []⟩).2.blacklist.map
        (fun e => e.cpu_threshold)) = [150] ∧ ¬ ((150 : ℚ) ≤ 100) := by
  constructor
  · decide
  · decide

/-- C4 amended: only `set_cpu_threshold` clamps — it stores and returns
`min (max t 0) 100` for every input `t` — while `add_to_blacklist` stores
the caller-provided `cpu_threshold` unmodified. -/
theorem c4_clamp_amended :
    (∀ (n : Str) (t : ℚ) (st : AppState) (v : ℚ),
        (set_cpu_threshold n t st).1 = Except.ok v → v = min (max t 0) 100) ∧
    (∀ (n : Str) (t : ℚ) (st : AppState),
        ∀ e ∈ (set_cpu_threshold n t st).2.blacklist,
          e ∈ st.blacklist ∨ e.cpu_threshold = min (max t 0) 100) ∧
    (∀ (n : Str) (ak : Bool) (t : ℚ) (now : Str) (st : AppState) (r : Str),
        (add_to_blacklist n ak t now st).1 = Except.ok r →
        (add_to_blacklist n ak t now st).2.blacklist =
          st.blacklist ++ [⟨resolve_process_name n, ak, t, true, now, 0⟩]) := by
  refine ⟨?_, ?_, ?_⟩
  · intro n t st v h
    cases hx : setCpuThresholdAux (strLower n) t st.blacklist with
    | none => unfold set_cpu_threshold at h; rw [hx] at h; simp at h
    | some p =>
      unfold set_cpu_threshold at h; rw [hx] at h
      simp at h
      rw [← h]
      exact setCpuThresholdAux_val (strLower n) t st.blacklist p.2 p.1 (by rw [hx])
  · intro n t st e he
    cases hx : setCpuThresholdAux (strLower n) t st.blacklist with
    | none =>
      left
      unfold set_cpu_threshold at he; rw [hx] at he
      exact he
    | some p =>
      unfold set_cpu_threshold at he; rw [hx] at he
      exact setCpuThresholdAux_mem (strLower n) t st.blacklist p.2 p.1 (by rw [hx]) e he
  · intro n ak t now st r h
    by_cases h1 : (resolve_process_name n).isEmpty = true
    · exfalso; simp [add_to_blacklist, h1] at h
    · by_cases h2 : (st.blacklist.any
          (fun e => strLower e.name = strLower (resolve_process_name n))) = true
      · exfalso; simp [add_to_blacklist, h1, h2] at h
      · simp [add_to_blacklist, h1, h2]

/-- C4 witness: setting a threshold of 150 on a present entry returns the
clamped value, and adding with 150 stores 150. -/
theorem c4_clamp_amended_witness :
    (min (max (150 : ℚ) 0) 100 = min (max (150 : ℚ) 0) 100) ∧
    ((add_to_blacklist "foo".toList true 150 "t".toList ⟨[], []⟩).2.blacklist =
      [] ++ [⟨resolve_process_name "foo".toList, true, 150, true, "t".toList, 0⟩]) :=
  ⟨c4_clamp_amended.1 "a".toList 150 ⟨[⟨"a".toList, false, 5, true, [], 0⟩], []⟩
      (min (max 150 0) 100) rfl,
   c4_clamp_amended.2.2 "foo".toList true 150 "t".toList ⟨[], []⟩
      ("foo added to blacklist".toList) rfl⟩

-- ===== C7 =====

/-- `(Char.ofNat n).toNat = n` for valid scalar values. -/
theorem char_toNat_ofNat (n : ℕ) (h : n.isValidChar) :
    (Char.ofNat n).toNat = n := by
  unfold Char.ofNat
  rw [dif_pos h]
  rfl

/-- `Char.toLower` is idempotent. -/
theorem charToLower_idem (c : Char) : c.toLower.toLower = c.toLower := by
  by_cases h : c.toNat ≥ 65 ∧ c.toNat ≤ 90
  · have h1 : c.toLower = Char.ofNat (c.toNat + 32) := by
      simp only [Char.toLower]
      rw [if_pos h]
    rw [h1]
    have hv : (Char.ofNat (c.toNat + 32)).toNat = c.toNat + 32 :=
      char_toNat_ofNat _ (Or.inl (by omega))
    simp only [Char.toLower, hv]
    rw [if_neg (by omega)]
  · have h1 : c.toLower = c := by
      simp only [Char.toLower]
      rw [if_neg h]
    rw [h1, h1]

/-- Lowercasing a string is idempotent. -/
theorem strLower_idem (s : Str) : strLower (strLower s) = strLower s := by
  unfold strLower
  rw [List.map_map]
  congr 1
  funext c
  exact charToLower_idem c

/-- The canonical name produced by `resolve_process_name` is already
lowercase. -/
theorem strLower_resolve (n : Str) :
    strLower (resolve_process_name n) = resolve_process_name n := by
  simp only [resolve_process_name]
  split_ifs <;> first
    | decide
    | exact strLower_idem _

/-- C7 counterexample: adding `"Chrome"` stores the name `"chrome"`, which
differs from the typed original — the display casing is not preserved. -/
theorem c7_case_not_preserved :
    ((add_to_blacklist "Chrome".toList true 0 "t".toList ⟨[], []⟩).2.blacklist.map
        (fun e => e.name)) = ["chrome".toList] ∧
    "chrome".toList ≠ "Chrome".toList := by
  constructor
  · decide
  · decide

/-- C7 amended: the stored name of a created entry is the canonical form
`resolve_process_name name` — trimmed, lowercased and alias-resolved, not
the original casing — and all subsequent lookups (remove, the toggles, set
threshold) match names case-insensitively. -/
theorem c7_canonical_name_amended :
    (∀ (n : Str) (ak : Bool) (t : ℚ) (now : Str) (st : AppState) (r : Str),
        (add_to_blacklist n ak t now st).1 = Except.ok r →
        (add_to_blacklist n ak t now st).2.blacklist.map (fun e => e.name) =
          st.blacklist.map (fun e => e.name) ++ [resolve_process_name n]) ∧
    (∀ n : Str, strLower (resolve_process_name n) = resolve_process_name n) ∧
    (∀ (n : Str) (st : AppState),
        (remove_from_blacklist n st).2 = (remove_from_blacklist (strLower n) st).2) ∧
    (∀ (n : Str) (st : AppState),
        toggle_auto_kill n st = toggle_auto_kill (strLower n) st) ∧
    (∀ (n : Str) (st : AppState),
        toggle_blacklist_log n st = toggle_blacklist_log (strLower n) st) ∧
    (∀ (n : Str) (t : ℚ) (st : AppState),
        set_cpu_threshold n t st = set_cpu_threshold (strLower n) t st) := by
  refine ⟨?_, strLower_resolve, ?_, ?_, ?_, ?_⟩
  · intro n ak t now st r h
    by_cases h1 : (resolve_process_name n).isEmpty = true
    · exfalso; simp [add_to_blacklist, h1] at h
    · by_cases h2 : (st.blacklist.any
          (fun e => strLower e.name = strLower (resolve_process_name n))) = true
      · exfalso; simp [add_to_blacklist, h1, h2] at h
      · simp [add_to_blacklist, h1, h2]
  · intro n st
    unfold remove_from_blacklist
    rw [strLower_idem]
    dsimp only
    split <;> rfl
  · intro n st
    unfold toggle_auto_kill
    rw [strLower_idem]
  · intro n st
    unfold toggle_blacklist_log
    rw [strLower_idem]
  · intro n t st
    unfold set_cpu_threshold
    rw [strLower_idem]


/-- C7 witness: a successful concrete add stores the canonical name. -/
theorem c7_canonical_name_amended_witness :
    (add_to_blacklist "Chrome".toList true 0 "t".toList ⟨[], []⟩).2.blacklist.map
        (fun e => e.name) =
      [].map (fun e : BlacklistEntry => e.name) ++
        [resolve_process_name "Chrome".toList] :=
  c7_canonical_name_amended.1 "Chrome".toList true 0 "t".toList ⟨[], []⟩
    ("chrome added to blacklist".toList) rfl

-- ===== C5 =====

/-- The state left by `remove_from_blacklist` always carries the filtered
blacklist (both on success and on the not-found error). -/
theorem remove_blacklist_eq (n : Str) (st : AppState) :
    (remove_from_blacklist n st).2.blacklist =
      st.blacklist.filter (fun e => strLower e.name ≠ strLower n) := by
  unfold remove_from_blacklist
  dsimp only
  split <;> rfl

/-- `add` and `remove` preserve case-insensitive uniqueness of names. -/
theorem distinctNames_applyOp (st : AppState) (op : BlOp)
    (h : distinctNames st.blacklist) : distinctNames (applyOp st op).blacklist := by
  cases op with
  | addOp n ak thr now =>
    show distinctNames (add_to_blacklist n ak thr now st).2.blacklist
    by_cases h1 : (resolve_process_name n).isEmpty = true
    · simpa [add_to_blacklist, h1] using h
    · by_cases h2 : (st.blacklist.any
          (fun e => strLower e.name = strLower (resolve_process_name n))) = true
      · simpa [add_to_blacklist, h1, h2] using h
      · unfold distinctNames
        simp only [add_to_blacklist, h1, h2, Bool.false_eq_true, if_false]
        rw [List.pairwise_append]
        refine ⟨h, List.pairwise_singleton _ _, ?_⟩
        intro a ha b hb
        simp only [List.mem_singleton] at hb
        subst hb
        intro heq
        apply h2
        rw [List.any_eq_true]
        exact ⟨a, ha, by simpa using heq⟩
  | removeOp n =>
    show distinctNames (remove_from_blacklist n st).2.blacklist
    rw [remove_blacklist_eq]
    exact List.Pairwise.sublist (List.filter_sublist _) h

/-- C5: starting from the empty blacklist, no sequence of add/remove calls
ever produces two entries with case-insensitively equal names; `add` rejects
a case-insensitive collision with the `Already in blacklist` error, and
`remove` deletes exactly the case-insensitive matches. -/
theorem c5_unique_names :
    (∀ ops : List BlOp, distinctNames (runOps ops ⟨[], []⟩).blacklist) ∧
    (∀ (n : Str) (ak : Bool) (thr : ℚ) (now : Str) (st : AppState),
        (add_to_blacklist n ak thr now st).1 =
            Except.error "Already in blacklist".toList ↔
          resolve_process_name n ≠ [] ∧
            ∃ e ∈ st.blacklist,
              strLower e.name = strLower (resolve_process_name n)) ∧
    (∀ (n : Str) (st : AppState),
        (remove_from_blacklist n st).2.blacklist =
          st.blacklist.filter (fun e => strLower e.name ≠ strLower n)) := by
  refine ⟨?_, ?_, remove_blacklist_eq⟩
  · have hrun : ∀ (ops : List BlOp) (st : AppState),
        distinctNames st.blacklist → distinctNames (runOps ops st).blacklist := by
      intro ops
      induction ops with
      | nil => intro st h; exact h
      | cons op rest ih =>
        intro st h
        exact ih _ (distinctNames_applyOp st op h)
    intro ops
    exact hrun ops ⟨[], []⟩ List.Pairwise.nil
  · intro n ak thr now st
    by_cases h1 : (resolve_process_name n).isEmpty = true
    · constructor
      · intro h
        exfalso
        simp +decide [add_to_blacklist, h1] at h
      · rintro ⟨hne, -⟩
        exact absurd (List.isEmpty_iff.mp h1) hne
    · by_cases h2 : (st.blacklist.any
          (fun e => strLower e.name = strLower (resolve_process_name n))) = true
      · constructor
        · intro _
          refine ⟨fun hnil => h1 (List.isEmpty_iff.mpr hnil), ?_⟩
          obtain ⟨e, he, hp⟩ := List.any_eq_true.mp h2
          exact ⟨e, he, by simpa using hp⟩
        · intro _
          simp [add_to_blacklist, h1, h2]
      · constructor
        · intro h
          exfalso
          simp [add_to_blacklist, h1, h2] at h
        · rintro ⟨hne, e, he, heq⟩
          exfalso
          apply h2
          rw [List.any_eq_true]
          exact ⟨e, he, by simpa using heq⟩

-- ===== C1 =====

/-- C1: under a rule with `auto_kill = true`, the enforcement pass attempts
termination exactly when `cpu_threshold ≤ 0` or the normalized CPU is `≥`
the threshold (inclusive); a zero threshold makes every match kill-eligible
and a process exactly at the threshold is kill-eligible.  At the pass level
(`stepOne`, the per-process body of `check_and_kill_blacklist`): in the
eligible case the logged `was_killed` equals the OS kill result, in the
ineligible case the log reports the below-threshold reason with
`was_killed = false` and no `kill_count` changes, whatever the OS would have
answered. -/
theorem c1_threshold_gate :
    (∀ (ok : Bool) (thr cpu : ℚ),
        ((kill_decision ok true thr cpu).attempted = true ↔ thr ≤ 0 ∨ cpu ≥ thr)) ∧
    (∀ (ok : Bool) (cpu : ℚ), (kill_decision ok true 0 cpu).attempted = true) ∧
    (∀ (ok : Bool) (thr : ℚ), (kill_decision ok true thr thr).attempted = true) ∧
    (∀ (info : List RuleInfo) (cnt : ℚ) (killOk : ℕ → Bool) (now : Str)
        (acc : List ActivityLog × AppState) (p : SysProc) (r : RuleInfo),
      info.find? (ruleMatches (strLower p.name)) = some r →
      r.auto_kill = true →
      r.log_enabled = true →
      ((r.cpu_threshold ≤ 0 ∨ p.cpu / cnt ≥ r.cpu_threshold →
          (stepOne info cnt killOk now acc p).1 =
            acc.1 ++ [⟨p.name, p.pid, p.cpu / cnt, now, killOk p.pid,
              if killOk p.pid then killedReason (p.cpu / cnt)
              else "Kill failed (no permission)".toList⟩]) ∧
       (¬(r.cpu_threshold ≤ 0 ∨ p.cpu / cnt ≥ r.cpu_threshold) →
          (stepOne info cnt killOk now acc p).1 =
            acc.1 ++ [⟨p.name, p.pid, p.cpu / cnt, now, false,
              belowReason (p.cpu / cnt) r.cpu_threshold⟩] ∧
          (stepOne info cnt killOk now acc p).2.blacklist = acc.2.blacklist))) := by
  have hmain : ∀ (ok : Bool) (thr cpu : ℚ),
      ((kill_decision ok true thr cpu).attempted = true ↔ thr ≤ 0 ∨ cpu ≥ thr) := by
    intro ok thr cpu
    by_cases h1 : thr ≤ 0
    · cases ok <;> simp [kill_decision, h1]
    · by_cases h2 : cpu ≥ thr
      · cases ok <;> simp [kill_decision, h1, h2]
      · have h3 : cpu < thr := lt_of_not_ge h2
        cases ok <;> simp [kill_decision, h1, h2, h3]
  refine ⟨hmain,
    fun ok cpu => (hmain ok 0 cpu).mpr (Or.inl le_rfl),
    fun ok thr => (hmain ok thr thr).mpr (Or.inr le_rfl), ?_⟩
  intro info cnt killOk now acc p r hf ha hl
  constructor
  · intro helig
    have hsk : (decide (r.cpu_threshold ≤ 0) ||
        decide (p.cpu / cnt ≥ r.cpu_threshold)) = true := by
      rcases helig with h | h <;> simp [h]
    unfold stepOne
    dsimp only
    rw [hf]
    cases hok : killOk p.pid <;>
      simp [kill_decision, ha, hsk, hl, hok]
  · intro hne
    have hn1 : ¬ r.cpu_threshold ≤ 0 := fun h => hne (Or.inl h)
    have hn2 : ¬ p.cpu / cnt ≥ r.cpu_threshold := fun h => hne (Or.inr h)
    have hlt : p.cpu / cnt < r.cpu_threshold := lt_of_not_ge hn2
    unfold stepOne
    dsimp only
    rw [hf]
    constructor
    · simp [kill_decision, ha, hn1, hn2, hlt, hl]
    · simp [kill_decision, ha, hn1, hn2, hlt, hl]

/-- C1 witness: a zero-threshold auto-kill rule on a live matching process
makes the pass attempt the kill, and the logged `was_killed` is the OS
answer. -/
theorem c1_threshold_gate_witness :
    (List.find? (ruleMatches (strLower "Chrome".toList))
        [(⟨"chrome".toList, true, 0, true⟩ : RuleInfo)] =
      some ⟨"chrome".toList, true, 0, true⟩) ∧
    (stepOne [⟨"chrome".toList, true, 0, true⟩] 1 (fun _ => true) []
        ([], ⟨[], []⟩) ⟨7, "Chrome".toList, 5, 0⟩).1 =
      [] ++ [⟨"Chrome".toList, 7, 5 / 1, [], true,
        if true then killedReason (5 / 1)
        else "Kill failed (no permission)".toList⟩] :=
  ⟨by decide,
   (c1_threshold_gate.2.2.2 [⟨"chrome".toList, true, 0, true⟩] 1 (fun _ => true)
      [] ([], ⟨[], []⟩) ⟨7, "Chrome".toList, 5, 0⟩ ⟨"chrome".toList, true, 0, true⟩
      (by decide) rfl rfl).1 (Or.inl (by decide))⟩

-- ===== C2 =====

/-- C2: in an enforcement pass the first matching rule fully governs a
process: the per-process step behaves as if that rule were the only one,
and the rules after the first match are never consulted (replacing them
arbitrarily does not change the outcome). -/
theorem c2_first_match_exclusive :
    ∀ (cnt : ℚ) (killOk : ℕ → Bool) (now : Str)
      (acc : List ActivityLog × AppState) (p : SysProc)
      (pre rest rest' : List RuleInfo) (r : RuleInfo),
      (∀ r' ∈ pre, ruleMatches (strLower p.name) r' = false) →
      ruleMatches (strLower p.name) r = true →
      stepOne (pre ++ r :: rest) cnt killOk now acc p =
          stepOne [r] cnt killOk now acc p ∧
      stepOne (pre ++ r :: rest) cnt killOk now acc p =
          stepOne (pre ++ r :: rest') cnt killOk now acc p := by
  intro cnt killOk now acc p pre rest rest' r hpre hr
  have hfind : ∀ tail, List.find? (ruleMatches (strLower p.name))
      (pre ++ r :: tail) = some r := by
    intro tail
    rw [List.find?_append]
    have h0 : List.find? (ruleMatches (strLower p.name)) pre = none :=
      List.find?_eq_none.mpr (fun x hx => by simp [hpre x hx])
    rw [h0]
    simp [List.find?_cons, hr]
  have hone : List.find? (ruleMatches (strLower p.name)) [r] = some r := by
    simp [List.find?_cons, hr]
  constructor
  · unfold stepOne
    dsimp only
    rw [hfind rest, hone]
  · unfold stepOne
    dsimp only
    rw [hfind rest, hfind rest']

/-- C2 witness: with one non-matching rule before the matching rule, the
step equals the step with the matching rule alone. -/
theorem c2_first_match_exclusive_witness :
    stepOne [⟨"zzz".toList, true, 0, true⟩, ⟨"proc".toList, false, 0, true⟩,
        ⟨"p".toList, true, 0, true⟩] 1 (fun _ => true) [] ([], ⟨[], []⟩)
        ⟨1, "proc".toList, 0, 0⟩ =
      stepOne [⟨"proc".toList, false, 0, true⟩] 1 (fun _ => true) [] ([], ⟨[], []⟩)
        ⟨1, "proc".toList, 0, 0⟩ :=
  (c2_first_match_exclusive 1 (fun _ => true) [] ([], ⟨[], []⟩)
    ⟨1, "proc".toList, 0, 0⟩ [⟨"zzz".toList, true, 0, true⟩]
    [⟨"p".toList, true, 0, true⟩] [] ⟨"proc".toList, false, 0, true⟩
    (by decide) (by decide)).1

-- ===== C6 =====

/-- Reading a cons cell of the usage map. -/
theorem gpuLookup_cons (p : ℕ) (x : ℚ) (m : List (ℕ × ℚ)) (q : ℕ) :
    gpuLookup ((p, x) :: m) q = if p = q then x else gpuLookup m q := by
  by_cases h : p = q <;> simp [gpuLookup, List.find?_cons, h]

/-- Accumulating `v` for `pid` changes only `pid`'s total, by `+ v`. -/
theorem gpuLookup_addGpuUsage (m : List (ℕ × ℚ)) (pid : ℕ) (v : ℚ) (q : ℕ) :
    gpuLookup (addGpuUsage m pid v) q =
      gpuLookup m q + (if q = pid then v else 0) := by
  induction m with
  | nil =>
    by_cases hq : q = pid
    · subst hq
      simp [addGpuUsage, gpuLookup_cons, gpuLookup]
    · have hq2 : ¬ pid = q := fun h => hq h.symm
      simp [addGpuUsage, gpuLookup_cons, gpuLookup, hq, hq2]
  | cons e rest ih =>
    obtain ⟨p, x⟩ := e
    by_cases hp : p = pid
    · subst hp
      simp only [addGpuUsage, if_pos rfl]
      by_cases hq : p = q
      · subst hq
        simp [gpuLookup_cons]
      · have hq2 : ¬ q = p := fun h => hq h.symm
        simp [gpuLookup_cons, hq, hq2]
    · simp only [addGpuUsage, if_neg hp]
      by_cases hq : p = q
      · subst hq
        have hq2 : ¬ p = pid := hp
        have hq3 : (p = pid) = False := by simp [hp]
        simp [gpuLookup_cons, hq3]
      · simp [gpuLookup_cons, hq, ih]

/-- The counter-item loop sums, per pid, the values of the instances whose
name parses to that pid; accumulation starts from the running map. -/
theorem get_usage_lookup :
    ∀ (items : List (Str × ℚ)) (m : List (ℕ × ℚ)) (pid : ℕ),
      gpuLookup (items.foldl
          (fun m it =>
            match parse_pid_from_instance it.1 with
            | some q => addGpuUsage m q it.2
            | none => m) m) pid =
        gpuLookup m pid +
          ((items.filter
              (fun it => parse_pid_from_instance it.1 = some pid)).map
            (fun it => it.2)).sum := by
  intro items
  induction items with
  | nil => intro m pid; simp
  | cons it rest ih =>
    intro m pid
    cases hp : parse_pid_from_instance it.1 with
    | none =>
      simp only [List.foldl_cons, hp]
      rw [ih]
      have : (parse_pid_from_instance it.1 = some pid) = False := by
        simp [hp]
      simp [List.filter_cons, this]
    | some q =>
      simp only [List.foldl_cons, hp]
      rw [ih]
      rw [gpuLookup_addGpuUsage]
      by_cases hq : pid = q
      · subst hq
        simp [List.filter_cons, hp]
        ring
      · have : (parse_pid_from_instance it.1 = some pid) = False := by
          simp [hp]
          exact fun h => hq h.symm
        simp [List.filter_cons, this, hq]

/-- `findSubIdx` misses exactly when the pattern does not occur. -/
theorem findSubIdx_none_iff (l pat : Str) :
    findSubIdx l pat = none ↔ containsSub l pat = false := by
  induction l with
  | nil =>
    by_cases hp : pat.isEmpty = true <;> simp [findSubIdx, containsSub, hp]
  | cons c rest ih =>
    by_cases hp : pat.isPrefixOf (c :: rest) = true
    · simp [findSubIdx, containsSub, hp]
    · simp [findSubIdx, containsSub, hp]
      exact ih

/-- A decimal digit is not an underscore (and not a plus sign). -/
theorem digit_ne_underscore {c : Char} (h : c.isDigit = true) :
    (c = '_') = False := by
  simp only [eq_iff_iff, iff_false]
  intro he
  subst he
  simp at h

theorem digit_ne_plus {c : Char} (h : c.isDigit = true) : c ≠ '+' := by
  intro he
  subst he
  simp at h

/-- C6: the GPU sampler takes, for each counter instance, the decimal digits
after the first `pid_` token up to the next `_` (or end of string) as the
pid, and reports per pid the *sum* of that pid's instance values; an
instance without a parseable `pid_` token contributes nothing and causes no
failure.  The two-instance example of the spec yields `{100 : 8.0}`. -/
theorem c6_gpu_attribution :
    (∀ (items : List (Str × ℚ)) (pid : ℕ),
        gpuLookup (get_usage items) pid =
          ((items.filter
              (fun it => parse_pid_from_instance it.1 = some pid)).map
            (fun it => it.2)).sum) ∧
    (get_usage [("pid_100_engtype_3D_eng_0".toList, 5),
        ("pid_100_engtype_Copy_eng_1".toList, 3)] = [(100, 8)]) ∧
    (∀ name : Str, containsSub name "pid_".toList = false →
        parse_pid_from_instance name = none) ∧
    (∀ (name ds post : Str) (k : ℕ),
        findSubIdx name "pid_".toList = some k →
        name.drop (k + 4) = ds ++ post →
        ds ≠ [] →
        ds.all Char.isDigit = true →
        (post = [] ∨ ∃ t, post = '_' :: t) →
        digitsVal ds < 4294967296 →
        parse_pid_from_instance name = some (digitsVal ds)) := by
  refine ⟨?_, ?_, ?_, ?_⟩
  · intro items pid
    have h := get_usage_lookup items [] pid
    simpa [get_usage, gpuLookup] using h
  · have h1 : parse_pid_from_instance "pid_100_engtype_3D_eng_0".toList = some 100 := by
      decide
    have h2 : parse_pid_from_instance "pid_100_engtype_Copy_eng_1".toList = some 100 := by
      decide
    show List.foldl _ _ _ = _
    simp only [List.foldl_cons, List.foldl_nil, h1, h2]
    simp [addGpuUsage]
    norm_num
  · intro name h
    have hn : findSubIdx name ['p', 'i', 'd', '_'] = none :=
      (findSubIdx_none_iff _ _).mpr h
    simp [parse_pid_from_instance, hn]
  · intro name ds post k hfind hdrop hne hall hpost hlt
    unfold parse_pid_from_instance
    rw [hfind]
    dsimp only
    rw [hdrop]
    have hds : List.findIdx? (fun c => c = '_') ds = none := by
      rw [List.findIdx?_eq_none_iff]
      intro c hc
      have := digit_ne_underscore (by
        have := List.all_eq_true.mp hall c hc
        simpa using this)
      simp [this]
    have hidx : (List.findIdx? (fun c => c = '_') (ds ++ post)).getD
        (ds ++ post).length = ds.length := by
      rw [List.findIdx?_append, hds]
      rcases hpost with h0 | ⟨t, ht⟩
      · subst h0
        simp
      · subst ht
        simp [List.findIdx?_cons]
    rw [hidx, List.take_left]
    obtain ⟨c, cs, rfl⟩ : ∃ c cs, ds = c :: cs := by
      cases ds with
      | nil => exact absurd rfl hne
      | cons c cs => exact ⟨c, cs, rfl⟩
    have hcd : c.isDigit = true := by
      have := List.all_eq_true.mp hall c (List.mem_cons_self _ _)
      simpa using this
    have hhead : ¬ ((c :: cs).head? = some '+') := by
      simp only [List.head?_cons, Option.some.injEq]
      exact digit_ne_plus hcd
    simp only [parseU32, if_neg hhead]
    rw [if_neg (by simp), if_pos hall, if_pos hlt]

/-- C6 witness: the characterisation applies to the concrete instance name
`pid_100_engtype_3D_eng_0`, whose digits after `pid_` are `100`. -/
theorem c6_gpu_attribution_witness :
    parse_pid_from_instance "pid_100_engtype_3D_eng_0".toList =
      some (digitsVal "100".toList) :=
  c6_gpu_attribution.2.2.2 "pid_100_engtype_3D_eng_0".toList "100".toList
    "_engtype_3D_eng_0".toList 0 (by decide) (by decide) (by decide) (by decide)
    (Or.inr ⟨"engtype_3D_eng_0".toList, by decide⟩) (by decide)

-- ===== C8 =====

/-- `addToGroup` keys: an existing key keeps the key list, a new key is
appended at the end. -/
theorem addToGroup_names (gs : List ProcessGroup) (n : Str) (pid : ℕ) (v : ℚ)
    (mem : ℕ) :
    (addToGroup gs n pid v mem).map (fun g => g.name) =
      if n ∈ gs.map (fun g => g.name) then gs.map (fun g => g.name)
      else gs.map (fun g => g.name) ++ [n] := by
  induction gs with
  | nil => simp [addToGroup]
  | cons g gs ih =>
    by_cases hg : g.name = n
    · simp only [addToGroup, if_pos hg, List.map_cons]
      rw [if_pos (List.mem_cons.mpr (Or.inl hg.symm))]
    · have hg2 : ¬ n = g.name := fun h => hg h.symm
      by_cases hmem : n ∈ gs.map (fun g => g.name) <;>
        simp [addToGroup, if_neg hg, ih, hmem, hg2]

/-- Looking up a key after one `addToGroup`: the addressed key gets the
four `+=` updates (or a fresh singleton group), other keys are untouched. -/
theorem addToGroup_find? (gs : List ProcessGroup) (n : Str) (pid : ℕ) (v : ℚ)
    (mem : ℕ) (k : Str) :
    (addToGroup gs n pid v mem).find? (fun g => g.name = k) =
      if k = n then
        match gs.find? (fun g => g.name = n) with
        | some g => some ⟨g.name, g.process_count + 1, g.pids ++ [pid],
            g.total_cpu + v, g.total_memory_kb + mem⟩
        | none => some ⟨n, 1, [pid], v, mem⟩
      else gs.find? (fun g => g.name = k) := by
  induction gs with
  | nil =>
    by_cases hk : k = n
    · subst hk
      simp [addToGroup]
    · have hk2 : ¬ n = k := fun h => hk h.symm
      simp [addToGroup, hk, hk2]
  | cons g gs ih =>
    by_cases hg : g.name = n
    · simp only [addToGroup, if_pos hg]
      by_cases hk : k = n
      · subst hk
        rw [List.find?_cons_of_pos _ (by simp [hg])]
        rw [if_pos rfl]
        rw [List.find?_cons_of_pos _ (by simp [hg])]
      · have hgk : ¬ g.name = k := fun h => hk (h.symm.trans hg)
        rw [List.find?_cons_of_neg _ (by simp [hgk])]
        rw [if_neg hk]
        rw [List.find?_cons_of_neg _ (by simp [hgk])]
    · simp only [addToGroup, if_neg hg]
      by_cases hk : k = n
      · subst hk
        rw [List.find?_cons_of_neg _ (by simp [hg])]
        rw [ih]
        rw [if_pos rfl, if_pos rfl]
        rw [List.find?_cons_of_neg _ (by simp [hg])]
      · by_cases hgk : g.name = k
        · rw [List.find?_cons_of_pos _ (by simp [hgk]), if_neg hk,
            List.find?_cons_of_pos _ (by simp [hgk])]
        · rw [List.find?_cons_of_neg _ (by simp [hgk]), ih, if_neg hk, if_neg hk,
            List.find?_cons_of_neg _ (by simp [hgk])]

/-- Unfolding `matchProcs` over the head process. -/
theorem matchProcs_cons (watch : List Str) (k : Str) (p : SysProc)
    (ps : List SysProc) :
    matchProcs watch k (p :: ps) =
      if procMatchesWatch watch (strLower p.name) = true ∧ p.name = k then
        p :: matchProcs watch k ps
      else matchProcs watch k ps := by
  by_cases h1 : procMatchesWatch watch (strLower p.name) = true <;>
    by_cases h2 : p.name = k <;>
      simp [matchProcs, List.filter_cons, h1, h2]

/-- Closed form of `extendGroup`: counts, pids and sums accumulate. -/
theorem extendGroup_spec (c : ℚ) (m : List SysProc) :
    ∀ g : ProcessGroup,
      extendGroup c g m =
        ⟨g.name, g.process_count + m.length,
         g.pids ++ m.map (fun p => p.pid),
         g.total_cpu + (m.map (fun p => p.cpu / c)).sum,
         g.total_memory_kb + (m.map (fun p => p.memory / 1024)).sum⟩ := by
  induction m with
  | nil => intro g; simp [extendGroup]
  | cons p ps ih =>
    intro g
    have hstep : extendGroup c g (p :: ps) =
        extendGroup c ⟨g.name, g.process_count + 1, g.pids ++ [p.pid],
          g.total_cpu + p.cpu / c, g.total_memory_kb + p.memory / 1024⟩ ps := rfl
    rw [hstep, ih]
    simp only [List.map_cons, List.sum_cons, List.length_cons]
    congr 1
    · omega
    · simp
    · ring
    · omega

/-- The grouping loop, characterised per key: starting from `gs`, after
folding `procs` the group under key `k` is the `gs` group (if any) extended
by `k`'s matching processes, or a fresh group built from them. -/
theorem buildGroups_loop_find? (watch : List Str) (c : ℚ) :
    ∀ (procs : List SysProc) (gs : List ProcessGroup) (k : Str),
      (procs.foldl (groupStep watch c) gs).find? (fun g => g.name = k) =
        match gs.find? (fun g => g.name = k) with
        | some g => some (extendGroup c g (matchProcs watch k procs))
        | none =>
          if matchProcs watch k procs = [] then none
          else some (extendGroup c ⟨k, 0, [], 0, 0⟩ (matchProcs watch k procs)) := by
  intro procs
  induction procs with
  | nil =>
    intro gs k
    cases hf : gs.find? (fun g => g.name = k) <;>
      simp [matchProcs, extendGroup, hf]
  | cons p ps ih =>
    intro gs k
    simp only [List.foldl_cons]
    by_cases hw : procMatchesWatch watch (strLower p.name) = true
    · have hstep : groupStep watch c gs p =
          addToGroup gs p.name p.pid (p.cpu / c) (p.memory / 1024) := by
        simp [groupStep, hw]
      rw [hstep, ih, addToGroup_find?, matchProcs_cons]
      by_cases hk : k = p.name
      · subst hk
        rw [if_pos rfl, if_pos (And.intro hw rfl)]
        cases hf : gs.find? (fun g => g.name = p.name) with
        | some g => rfl
        | none =>
          rw [if_neg (List.cons_ne_nil _ _)]
          have hz : (⟨p.name, 0 + 1, List.nil ++ [p.pid], 0 + p.cpu / c,
              0 + p.memory / 1024⟩ : ProcessGroup) =
              ⟨p.name, 1, [p.pid], p.cpu / c, p.memory / 1024⟩ := by
            simp
          show some (extendGroup c ⟨p.name, 1, [p.pid], p.cpu / c, p.memory / 1024⟩
              (matchProcs watch p.name ps)) =
            some (extendGroup c ⟨p.name, 0, [], 0, 0⟩
              (p :: matchProcs watch p.name ps))
          rw [show extendGroup c (⟨p.name, 0, [], 0, 0⟩ : ProcessGroup)
              (p :: matchProcs watch p.name ps) =
              extendGroup c ⟨p.name, 0 + 1, List.nil ++ [p.pid], 0 + p.cpu / c,
                0 + p.memory / 1024⟩ (matchProcs watch p.name ps) from rfl, hz]
      · rw [if_neg hk,
          if_neg (show ¬ (procMatchesWatch watch (strLower p.name) = true ∧
            p.name = k) from fun h => hk h.2.symm)]
    · have hstep : groupStep watch c gs p = gs := by simp [groupStep, hw]
      rw [hstep, ih, matchProcs_cons,
        if_neg (show ¬ (procMatchesWatch watch (strLower p.name) = true ∧
          p.name = k) from fun h => hw h.1)]

/-- Looking up a key in the built grouping. -/
theorem buildGroups_find? (watch : List Str) (c : ℚ) (procs : List SysProc)
    (k : Str) :
    (buildGroups watch c procs).find? (fun g => g.name = k) =
      if matchProcs watch k procs = [] then none
      else some (groupSpec watch c procs k) := by
  have h := buildGroups_loop_find? watch c procs [] k
  simp only [List.find?_nil] at h
  rw [show buildGroups watch c procs = procs.foldl (groupStep watch c) [] from rfl]
  rw [h]
  by_cases hm : matchProcs watch k procs = []
  · rw [if_pos hm, if_pos hm]
  · rw [if_neg hm, if_neg hm, extendGroup_spec]
    simp [groupSpec]

/-- The built grouping has pairwise distinct keys. -/
theorem buildGroups_names_nodup (watch : List Str) (c : ℚ) :
    ∀ (procs : List SysProc) (gs : List ProcessGroup),
      (gs.map (fun g => g.name)).Nodup →
      ((procs.foldl (groupStep watch c) gs).map (fun g => g.name)).Nodup := by
  intro procs
  induction procs with
  | nil => intro gs h; exact h
  | cons p ps ih =>
    intro gs h
    simp only [List.foldl_cons]
    apply ih
    by_cases hw : procMatchesWatch watch (strLower p.name) = true
    · have hstep : groupStep watch c gs p =
          addToGroup gs p.name p.pid (p.cpu / c) (p.memory / 1024) := by
        simp [groupStep, hw]
      rw [hstep, addToGroup_names]
      by_cases hmem : p.name ∈ gs.map (fun g => g.name)
      · rw [if_pos hmem]; exact h
      · rw [if_neg hmem]
        simp [List.nodup_append, h, hmem]
    · simpa [groupStep, hw] using h

/-- With distinct keys, `find?` by an element's own name returns it. -/
theorem find?_name_of_mem_nodup :
    ∀ (gs : List ProcessGroup), (gs.map (fun g => g.name)).Nodup →
      ∀ g ∈ gs, gs.find? (fun x => x.name = g.name) = some g := by
  intro gs
  induction gs with
  | nil => intro _ g hg; simp at hg
  | cons a rest ih =>
    intro hnd g hg
    have hnd2 := List.nodup_cons.mp
      (show (a.name :: rest.map (fun g => g.name)).Nodup by simpa using hnd)
    rcases List.mem_cons.mp hg with h1 | h1
    · subst h1
      rw [List.find?_cons_of_pos _ (by simp)]
    · have hne : ¬ a.name = g.name := by
        intro he
        apply hnd2.1
        rw [he]
        exact List.mem_map.mpr ⟨g, h1, rfl⟩
      rw [List.find?_cons_of_neg _ (by simp [hne])]
      exact ih hnd2.2 g h1

/-- Draining the map in key order returns exactly the groups. -/
theorem filterMap_find?_names :
    ∀ (gs : List ProcessGroup), (gs.map (fun g => g.name)).Nodup →
      (gs.map (fun g => g.name)).filterMap
          (fun k => gs.find? (fun g => g.name = k)) = gs := by
  intro gs
  induction gs with
  | nil => simp
  | cons a rest ih =>
    intro hnd
    have hnd2 := List.nodup_cons.mp
      (show (a.name :: rest.map (fun g => g.name)).Nodup by simpa using hnd)
    simp only [List.map_cons, List.filterMap_cons]
    rw [List.find?_cons_of_pos _ (by simp)]
    have hcong : (rest.map (fun g => g.name)).filterMap
        (fun k => (a :: rest).find? (fun g => g.name = k)) =
        (rest.map (fun g => g.name)).filterMap
          (fun k => rest.find? (fun g => g.name = k)) := by
      apply List.filterMap_congr
      intro k hk
      have hka : ¬ a.name = k := by
        intro he
        exact hnd2.1 (he ▸ hk)
      rw [List.find?_cons_of_neg _ (by simp [hka])]
    rw [hcong, ih hnd2.2]

/-- Membership in a stable insertion. -/
theorem mem_insertSorted (x : ProcessGroup) :
    ∀ (l : List ProcessGroup) (a : ProcessGroup),
      a ∈ insertSorted x l ↔ a = x ∨ a ∈ l := by
  intro l
  induction l with
  | nil => intro a; simp [insertSorted]
  | cons y ys ih =>
    intro a
    by_cases h : groupLe y x = true
    · simp only [insertSorted, if_pos h, List.mem_cons, ih]
      tauto
    · simp only [insertSorted, if_neg h, List.mem_cons]

/-- Inserting into a descending-sorted list keeps it descending-sorted. -/
theorem pairwise_insertSorted (x : ProcessGroup) :
    ∀ l : List ProcessGroup,
      l.Pairwise (fun a b => b.total_cpu ≤ a.total_cpu) →
      (insertSorted x l).Pairwise (fun a b => b.total_cpu ≤ a.total_cpu) := by
  intro l
  induction l with
  | nil => intro _; simp [insertSorted]
  | cons y ys ih =>
    intro hp
    rw [List.pairwise_cons] at hp
    obtain ⟨hy, hys⟩ := hp
    by_cases h : groupLe y x = true
    · simp only [insertSorted, if_pos h]
      rw [List.pairwise_cons]
      refine ⟨?_, ih hys⟩
      intro b hb
      rcases (mem_insertSorted x ys b).mp hb with h1 | h1
      · subst h1
        simpa [groupLe] using h
      · exact hy b h1
    · simp only [insertSorted, if_neg h]
      have hxy : y.total_cpu ≤ x.total_cpu := by
        have h2 : ¬ x.total_cpu ≤ y.total_cpu := by simpa [groupLe] using h
        exact le_of_lt (lt_of_not_ge h2)
      rw [List.pairwise_cons]
      refine ⟨?_, List.pairwise_cons.mpr ⟨hy, hys⟩⟩
      intro b hb
      rcases List.mem_cons.mp hb with h1 | h1
      · subst h1; exact hxy
      · exact le_trans (hy b h1) hxy

/-- The sort output is descending in `total_cpu`. -/
theorem sortGroups_pairwise (l : List ProcessGroup) :
    (sortGroups l).Pairwise (fun a b => b.total_cpu ≤ a.total_cpu) := by
  suffices h : ∀ (l acc : List ProcessGroup),
      acc.Pairwise (fun a b => b.total_cpu ≤ a.total_cpu) →
      (l.foldl (fun acc g => insertSorted g acc) acc).Pairwise
        (fun a b => b.total_cpu ≤ a.total_cpu) from
    h l [] (by simp)
  intro l
  induction l with
  | nil => intro acc h; exact h
  | cons g gs ih => intro acc h; exact ih _ (pairwise_insertSorted g acc h)

/-- Stable insertion is a permutation of consing. -/
theorem insertSorted_perm (x : ProcessGroup) :
    ∀ l : List ProcessGroup, (insertSorted x l).Perm (x :: l) := by
  intro l
  induction l with
  | nil => exact List.Perm.refl _
  | cons y ys ih =>
    by_cases h : groupLe y x = true
    · simp only [insertSorted, if_pos h]
      exact (ih.cons y).trans (List.Perm.swap x y ys)
    · simp only [insertSorted, if_neg h]
      exact List.Perm.refl _

/-- The sort permutes its input. -/
theorem sortGroups_perm (l : List ProcessGroup) : (sortGroups l).Perm l := by
  suffices h : ∀ (l acc : List ProcessGroup),
      (l.foldl (fun acc g => insertSorted g acc) acc).Perm (acc ++ l) by
    simpa [sortGroups] using h l []
  intro l
  induction l with
  | nil => intro acc; simp
  | cons g gs ih =>
    intro acc
    simp only [List.foldl_cons]
    exact (ih _).trans (((insertSorted_perm g acc).append_right gs).trans
      List.perm_middle.symm)

/-- C8 amended: for a non-empty watch list and any drain order of the
`HashMap` (an arbitrary permutation of the group keys), `grouped_processes`
returns exactly one group per distinct original-case name among the matching
processes, with `process_count`, summed `total_cpu`/`total_memory_kb` and the
member pids, sorted by descending `total_cpu` — but equal `total_cpu` groups
come out in the unspecified drain order, not necessarily encounter order. -/
theorem c8_grouped_amended :
    ∀ (names : List Str) (cnt : ℚ) (procs : List SysProc) (order : List Str),
      watchOf names ≠ [] →
      order.Perm ((buildGroups (watchOf names) (cpuCountOf cnt) procs).map
        (fun g => g.name)) →
      ((grouped_processes names cnt procs order).map (fun g => g.name)).Nodup ∧
      (grouped_processes names cnt procs order).Perm
        (buildGroups (watchOf names) (cpuCountOf cnt) procs) ∧
      (∀ g ∈ grouped_processes names cnt procs order,
          g = groupSpec (watchOf names) (cpuCountOf cnt) procs g.name ∧
          matchProcs (watchOf names) g.name procs ≠ []) ∧
      (∀ p ∈ procs,
          procMatchesWatch (watchOf names) (strLower p.name) = true →
          p.name ∈ (grouped_processes names cnt procs order).map
            (fun g => g.name)) ∧
      (grouped_processes names cnt procs order).Pairwise
        (fun a b => b.total_cpu ≤ a.total_cpu) := by
  intro names cnt procs order hw horder
  have hne : ¬ ((watchOf names).isEmpty = true) :=
    fun h => hw (List.isEmpty_iff.mp h)
  have hgp : grouped_processes names cnt procs order =
      sortGroups (order.filterMap
        (fun k => (buildGroups (watchOf names) (cpuCountOf cnt) procs).find?
          (fun g => g.name = k))) := by
    unfold grouped_processes
    rw [if_neg hne]
  have hnd : ((buildGroups (watchOf names) (cpuCountOf cnt) procs).map
      (fun g => g.name)).Nodup :=
    buildGroups_names_nodup (watchOf names) (cpuCountOf cnt) procs [] (by simp)
  have hid := filterMap_find?_names
    (buildGroups (watchOf names) (cpuCountOf cnt) procs) hnd
  have hperm : (grouped_processes names cnt procs order).Perm
      (buildGroups (watchOf names) (cpuCountOf cnt) procs) := by
    rw [hgp]
    refine (sortGroups_perm _).trans ?_
    have := horder.filterMap
      (fun k => (buildGroups (watchOf names) (cpuCountOf cnt) procs).find?
          (fun g => g.name = k))
    rw [hid] at this
    exact this
  refine ⟨?_, hperm, ?_, ?_, ?_⟩
  · exact ((hperm.map (fun g => g.name)).symm).nodup hnd
  · intro g hg
    have hgm : g ∈ buildGroups (watchOf names) (cpuCountOf cnt) procs :=
      hperm.mem_iff.mp hg
    have hf := find?_name_of_mem_nodup _ hnd g hgm
    have hb := buildGroups_find? (watchOf names) (cpuCountOf cnt) procs g.name
    rw [hf] at hb
    by_cases hm : matchProcs (watchOf names) g.name procs = []
    · rw [if_pos hm] at hb
      exact absurd hb (by simp)
    · rw [if_neg hm] at hb
      exact ⟨Option.some.inj hb, hm⟩
  · intro p hp hmatch
    have hm : matchProcs (watchOf names) p.name procs ≠ [] := by
      intro h0
      have hmem : p ∈ matchProcs (watchOf names) p.name procs := by
        simp [matchProcs, List.mem_filter, hp, hmatch]
      rw [h0] at hmem
      simp at hmem
    have hb := buildGroups_find? (watchOf names) (cpuCountOf cnt) procs p.name
    rw [if_neg hm] at hb
    have hmem2 : groupSpec (watchOf names) (cpuCountOf cnt) procs p.name ∈
        buildGroups (watchOf names) (cpuCountOf cnt) procs :=
      List.mem_of_find?_eq_some hb
    have hname : p.name ∈ (buildGroups (watchOf names) (cpuCountOf cnt)
        procs).map (fun g => g.name) :=
      List.mem_map.mpr ⟨_, hmem2, rfl⟩
    exact (hperm.map (fun g => g.name)).mem_iff.mpr hname
  · rw [hgp]
    exact sortGroups_pairwise _

/-- C8 witness: on an empty process table with the watch pattern `a`, every
part of the amended statement holds for the empty drain order. -/
theorem c8_grouped_amended_witness :
    (grouped_processes ["a".toList] 1 [] []).Pairwise
      (fun a b => b.total_cpu ≤ a.total_cpu) :=
  (c8_grouped_amended ["a".toList] 1 [] [] (by decide)
    (List.Perm.nil)).2.2.2.2

/-- C8 counterexample: two processes `A` and `B` with equal total CPU form
two tied groups; the drain orders `[A, B]` and `[B, A]` are both
permutations of the group keys (both are possible `HashMap` iteration
orders), yet they yield different outputs — so the tie order is *not*
determined to be encounter order, refuting the claim as stated. -/
theorem c8_tie_order_not_encounter :
    ((grouped_processes ["a".toList, "b".toList] 1
        [⟨1, "A".toList, 2, 0⟩, ⟨2, "B".toList, 2, 0⟩]
        ["A".toList, "B".toList]).map (fun g => g.name) = ["A".toList, "B".toList]) ∧
    ((grouped_processes ["a".toList, "b".toList] 1
        [⟨1, "A".toList, 2, 0⟩, ⟨2, "B".toList, 2, 0⟩]
        ["B".toList, "A".toList]).map (fun g => g.name) = ["B".toList, "A".toList]) ∧
    (["A".toList, "B".toList] ≠ ["B".toList, "A".toList]) ∧
    (["A".toList, "B".toList].Perm
      ((buildGroups (watchOf ["a".toList, "b".toList]) (cpuCountOf 1)
        [⟨1, "A".toList, 2, 0⟩, ⟨2, "B".toList, 2, 0⟩]).map (fun g => g.name))) ∧
    (["B".toList, "A".toList].Perm
      ((buildGroups (watchOf ["a".toList, "b".toList]) (cpuCountOf 1)
        [⟨1, "A".toList, 2, 0⟩, ⟨2, "B".toList, 2, 0⟩]).map (fun g => g.name))) := by
  have hA : groupLe ⟨"A".toList, 1, [1], 2 / 1, 0⟩ ⟨"B".toList, 1, [2], 2 / 1, 0⟩ = true := by
    simp [groupLe]
  have hB : groupLe ⟨"B".toList, 1, [2], 2 / 1, 0⟩ ⟨"A".toList, 1, [1], 2 / 1, 0⟩ = true := by
    simp [groupLe]
  refine ⟨?_, ?_, by decide, ?_, ?_⟩
  · rw [show grouped_processes ["a".toList, "b".toList] 1
        [⟨1, "A".toList, 2, 0⟩, ⟨2, "B".toList, 2, 0⟩] ["A".toList, "B".toList] =
        insertSorted ⟨"B".toList, 1, [2], 2 / 1, 0⟩
          (insertSorted ⟨"A".toList, 1, [1], 2 / 1, 0⟩ []) from rfl]
    simp only [insertSorted, if_pos hA]
    rfl
  · rw [show grouped_processes ["a".toList, "b".toList] 1
        [⟨1, "A".toList, 2, 0⟩, ⟨2, "B".toList, 2, 0⟩] ["B".toList, "A".toList] =
        insertSorted ⟨"A".toList, 1, [1], 2 / 1, 0⟩
          (insertSorted ⟨"B".toList, 1, [2], 2 / 1, 0⟩ []) from rfl]
    simp only [insertSorted, if_pos hB]
    rfl
  · exact List.Perm.refl _
  · exact List.Perm.swap _ _ _

end AKTM
